import Mathlib

/-!
Verification of the IDDFS maze solver in `Project2.py`.

The Python program represents the maze as a list of rows, each row a list of
cell tokens such as "B-S" (color "B", forced exit direction "S").  The solver
(`iterative_deepening_dfs`) repeatedly runs a depth-limited DFS
(`explore_maze_depth_limited`) with `max_depth = 1, 2, ..., rows*cols` and
returns the first path found, or the sentinel string
"No solution found within the depth limit.".

The embedding below follows the source line by line.  Python integers are
`Int` (grid positions may go negative before the bounds check rejects them),
Python lists are `List`, and the two partial operations — dictionary lookup in
`directions` (KeyError) and list indexing (IndexError) — return `Option`, with
the error propagated explicitly.  The unbounded `while stack:` loop is given a
fuel parameter; a theorem below computes a sufficient fuel bound, so the
`fuelOut` result is an artifact that provably never occurs for enough fuel.
-/

/-- Elements of a Python set may have different types.  The explored set of the
source holds the integer `0` (from `set((0, 0))`, which iterates the tuple
`(0, 0)` and yields its elements, i.e. the set `{0}`) together with pairs
`(row, col)` added later.  Only membership of pairs is ever queried. -/
inductive PyObj
  | int (n : Int)
  | pair (p : Int × Int)
deriving DecidableEq, Repr

/-- MazeNode of the source (line 34): position, explored set, path, depth.
The Python set is modelled as the list of its members (only membership and
copy-plus-insert are observed, so the order of the list is irrelevant). -/
structure MazeNode where
  row : Int
  col : Int
  explored : List PyObj
  path : List String
  depth : Nat
deriving DecidableEq, Repr

/-- The `directions` dictionary (source lines 60-70).  A missing key is `none`
(Python raises `KeyError`). -/
def directionsLookup (d : String) : Option (Int × Int) :=
  if d = "N" then some (-1, 0)
  else if d = "NE" then some (-1, 1)
  else if d = "NW" then some (-1, -1)
  else if d = "S" then some (1, 0)
  else if d = "SE" then some (1, 1)
  else if d = "SW" then some (1, -1)
  else if d = "E" then some (0, 1)
  else if d = "W" then some (0, -1)
  else if d = "O" then some (0, 0)
  else none

/-- Python's `str.upper()`, character by character.  (The standard library's
`String.toUpper` is defined by well-founded recursion and does not reduce
inside the kernel; this per-character map is the same function on the ASCII
tokens of this program and evaluates.) -/
def pyUpper (s : String) : String := String.mk (s.data.map Char.toUpper)

/-- `get_next_position` (source lines 72-93): uppercase the direction, look up
the delta, add it to the current position.  `none` models the KeyError raised
on an unrecognized direction. -/
def get_next_position (direction : String) (row col : Int) : Option (Int × Int) :=
  match directionsLookup (pyUpper direction) with
  | some (di, dj) => some (row + di, col + dj)
  | none => none

/-- `is_valid_bound` (source line 95): `0 <= row < final_rows and 0 <= col < final_cols`. -/
def is_valid_bound (row col final_rows final_cols : Int) : Bool :=
  decide (0 ≤ row) && decide (row < final_rows) && decide (0 ≤ col) && decide (col < final_cols)

/-- `manhattan_distance` (source line 122). -/
def manhattan_distance (row col target_row target_col : Int) : Int :=
  |target_row - row| + |target_col - col|

/-- Python list indexing `xs[i]` as an `Option`: non-negative indices are
direct, negative indices count from the end, anything else is an IndexError. -/
def pyIndex {α : Type} (xs : List α) (i : Int) : Option α :=
  if 0 ≤ i then xs.get? i.toNat
  else if 0 ≤ i + xs.length then xs.get? (i + xs.length).toNat
  else none

/-- The cell access `graph[row][col]` of the source. -/
def gridAt (graph : List (List String)) (row col : Int) : Option String :=
  match pyIndex graph row with
  | some r => pyIndex r col
  | none => none

/-- Python string slice `s[2:]`, used as `graph[row][col][2:]` to extract the
direction of a cell token (source line 192). -/
def tokenDir (s : String) : String := s.drop 2

/-- Python string slice `s[:1]`, used as `graph[row][col][:1]` to extract the
color of a cell token (source line 193). -/
def tokenColor (s : String) : String := s.take 1

/-- The f-string `f"{count}{cur_dir}"` (source lines 209 and 217). -/
def stepLabel (count : Nat) (dir : String) : String := toString count ++ dir

/-- Result of `explore_maze_depth_limited`: a path, `None`, a propagated
exception, or fuel exhaustion (an artifact of the embedding). -/
inductive MazeErr
  | keyError (d : String)
  | indexError
deriving DecidableEq, Repr

inductive ExpRes
  | found (p : String)
  | notFound
  | error (e : MazeErr)
  | fuelOut
deriving DecidableEq, Repr

/-- Result of one iteration of the inner `for count in range(1, max_depth+1)`
loop of the source (lines 195-224): either the final path was returned, or an
exception was raised, or the loop ran to completion (break or range end)
having appended `ns` to the stack, in order of appending. -/
inductive InnerRes
  | found (p : String)
  | pushed (ns : List MazeNode)
  | error (e : MazeErr)
deriving DecidableEq, Repr

/-- The inner stepping loop of `explore_maze_depth_limited` (source lines
195-224).  Arguments after `depth` are the mutable state: current cursor
`row`, `col`, the value of `count` for this iteration, and the number of
remaining iterations (`range(1, max_depth+1)` performs `max_depth` of them,
so the loop is called with `count = 1` and `remaining = max_depth`). -/
def innerLoop (graph : List (List String)) (final_rows final_cols : Int)
    (max_depth : Nat) (target_row target_col : Int)
    (cur_dir cur_color : String) (explored : List PyObj) (path : List String)
    (depth : Nat) : Int → Int → Nat → Nat → InnerRes
  | _row, _col, _count, 0 => .pushed []
  | row, col, count, remaining + 1 =>
    match get_next_position cur_dir row col with
    | none => .error (.keyError (pyUpper cur_dir))
    | some (next_row, next_col) =>
      if is_valid_bound next_row next_col final_rows final_cols then
        match gridAt graph next_row next_col with
        | none => .error .indexError
        | some next_cell =>
          let next_color := tokenColor next_cell
          if next_row = target_row ∧ next_col = target_col then
            .found (String.intercalate " " (path ++ [stepLabel count cur_dir]))
          else
            let rest := innerLoop graph final_rows final_cols max_depth target_row
              target_col cur_dir cur_color explored path depth next_row next_col
              (count + 1) remaining
            if next_color ≠ cur_color ∧ PyObj.pair (next_row, next_col) ∉ explored ∧
                depth < max_depth then
              let next_node : MazeNode :=
                ⟨next_row, next_col, PyObj.pair (next_row, next_col) :: explored,
                  path ++ [stepLabel count cur_dir], depth + 1⟩
              if manhattan_distance next_row next_col target_row target_col ≤
                  (max_depth : Int) - (count : Int) then
                match rest with
                | .pushed ns => .pushed (next_node :: ns)
                | other => other
              else rest
            else rest
      else .pushed []

/-- The `while stack:` loop of `explore_maze_depth_limited` (source lines
189-226).  The Python stack pops from and appends to the end of the list; here
the head of the list is the top of the stack, so the nodes appended by the
inner loop are pushed in reverse order.  `fuel` bounds the number of pops. -/
def exploreLoop (graph : List (List String)) (final_rows final_cols : Int)
    (max_depth : Nat) (target_row target_col : Int) : List MazeNode → Nat → ExpRes
  | _, 0 => .fuelOut
  | [], _ + 1 => .notFound
  | current :: stack, fuel + 1 =>
    match gridAt graph current.row current.col with
    | none => .error .indexError
    | some cell =>
      match innerLoop graph final_rows final_cols max_depth target_row target_col
          (tokenDir cell) (tokenColor cell) current.explored current.path
          current.depth current.row current.col 1 max_depth with
      | .found p => .found p
      | .error e => .error e
      | .pushed ns =>
        exploreLoop graph final_rows final_cols max_depth target_row target_col
          (ns.reverse ++ stack) fuel

/-- The initial node of source line 187:
`MazeNode(0, 0, set((0, 0)), [], 1)`.  In Python `set((0, 0))` is the set
`{0}` — the constructor iterates the tuple — so the explored set holds the
integer `0`, not the pair `(0, 0)`. -/
def initialNode : MazeNode := ⟨0, 0, [PyObj.int 0], [], 1⟩

/-- `explore_maze_depth_limited` (source line 153). -/
def explore_maze_depth_limited (graph : List (List String))
    (final_rows final_cols : Int) (max_depth : Nat) (target_row target_col : Int)
    (fuel : Nat) : ExpRes :=
  exploreLoop graph final_rows final_cols max_depth target_row target_col
    [initialNode] fuel

/-- Result of `iterative_deepening_dfs`: a path string, the no-solution
sentinel, a propagated exception, or fuel exhaustion. -/
inductive SolveRes
  | path (p : String)
  | noSolution
  | error (e : MazeErr)
  | fuelOut
deriving DecidableEq, Repr

/-- The `while max_depth <= max_depth_limit:` loop of the source (lines
251-256).  `attempts` is the number of remaining depth values, so the loop
runs for `max_depth, max_depth+1, ...` until `attempts` hits zero, which
models `max_depth` exceeding `max_depth_limit`.  A `Python if result:` test is
false for `None` and for the empty string, hence the `p = ""` check. -/
def iddfsAux (graph : List (List String)) (rows cols target_row target_col : Int)
    (fuel : Nat) : Nat → Nat → SolveRes
  | _, 0 => .noSolution
  | max_depth, attempts + 1 =>
    match explore_maze_depth_limited graph rows cols max_depth target_row target_col fuel with
    | .found p =>
      if p = "" then iddfsAux graph rows cols target_row target_col fuel (max_depth + 1) attempts
      else .path p
    | .notFound => iddfsAux graph rows cols target_row target_col fuel (max_depth + 1) attempts
    | .error e => .error e
    | .fuelOut => .fuelOut

/-- `iterative_deepening_dfs` (source line 228): depth limit `rows * cols`,
target `(rows - 1, cols - 1)`, depths tried from 1 upward; returns the
sentinel `noSolution` when the limit is exceeded (source line 258 returns the
string "No solution found within the depth limit."). -/
def iterative_deepening_dfs (graph : List (List String)) (rows cols : Int)
    (fuel : Nat) : SolveRes :=
  iddfsAux graph rows cols (rows - 1) (cols - 1) fuel 1 (rows * cols).toNat

/-- `solve_maze_from_file` (source line 262) just forwards to
`iterative_deepening_dfs`. -/
def solve_maze_from_file (graph : List (List String)) (rows cols : Int)
    (fuel : Nat) : SolveRes :=
  iterative_deepening_dfs graph rows cols fuel

/-- A grid is well formed when it has exactly `rows` rows of exactly `cols`
cells each, at least one row and one column, and every cell token carries a
recognized direction (compared case-insensitively, as the source uppercases
before the dictionary lookup). -/
def recognizedDir (s : String) : Bool := (directionsLookup (pyUpper s)).isSome

def wellFormedGrid (graph : List (List String)) (rows cols : Int) : Bool :=
  decide ((graph.length : Int) = rows) && decide (1 ≤ rows) && decide (1 ≤ cols) &&
    graph.all (fun r => decide ((r.length : Int) = cols) &&
      r.all (fun t => recognizedDir (tokenDir t)))

/-- Positions visited when taking `k` unit steps in direction `d` from `p`
(the start `p` itself is not included); `none` if the direction is not
recognized. -/
def runPositions (d : String) : Int × Int → Nat → Option (List (Int × Int))
  | _, 0 => some []
  | p, k + 1 =>
    match get_next_position d p.1 p.2 with
    | none => none
    | some q =>
      match runPositions d q k with
      | none => none
      | some qs => some (q :: qs)

/-- Replay of a list of path steps `(count, dir)` from a start position:
returns the full sequence of unit-step positions (start excluded), the landing
cell of each step, and the final position.  `none` when a direction is
unrecognized or a step has `count = 0` (labels written by the program always
have `count ≥ 1`). -/
def replayData : Int × Int → List (Nat × String) →
    Option (List (Int × Int) × List (Int × Int) × (Int × Int))
  | p, [] => some ([], [], p)
  | p, (k, d) :: steps =>
    match runPositions d p k with
    | none => none
    | some qs =>
      match qs.getLast? with
      | none => none
      | some q =>
        match replayData q steps with
        | none => none
        | some (ps, ls, e) => some (qs ++ ps, q :: ls, e)

/-- Every step of the list, replayed from `p`, lands on a cell whose color
differs from the color of the cell it started from. -/
def pathColorOk (graph : List (List String)) : Int × Int → List (Nat × String) → Prop
  | _, [] => True
  | p, (k, d) :: steps =>
    match runPositions d p k with
    | none => False
    | some qs =>
      match qs.getLast? with
      | none => False
      | some q =>
        (∃ a b, gridAt graph p.1 p.2 = some a ∧ gridAt graph q.1 q.2 = some b ∧
          tokenColor b ≠ tokenColor a) ∧ pathColorOk graph q steps

/-- Soundness property of a path string returned by the depth-limited
explorer with target `(tr, tc)`: it decomposes into step labels; replaying
them from the origin visits only bound-checked positions, lands exactly on the
target, never lands on the same cell twice, and every step except the final
one (which is exempt because the source checks the target before the color)
crosses a color change. -/
def FoundSound (graph : List (List String)) (rows cols tr tc : Int) (p : String) : Prop :=
  ∃ steps : List (Nat × String), ∃ last : Nat × String,
    ∃ ps ls : List (Int × Int),
      p = String.intercalate " " ((steps ++ [last]).map (fun s => stepLabel s.1 s.2)) ∧
      replayData (0, 0) (steps ++ [last]) = some (ps, ls, (tr, tc)) ∧
      (∀ q ∈ ((0, 0) : Int × Int) :: ps, is_valid_bound q.1 q.2 rows cols = true) ∧
      ls.Nodup ∧
      pathColorOk graph (0, 0) steps

/-- Invariant of every node on the explorer's stack: its path decomposes into
steps that replay from the origin to the node's position through bound-checked
cells, each step crossing a color change; the landing cells are pairwise
distinct, none of them is the target, and the explored set holds exactly the
integer `0` (the `set((0, 0))` artifact) plus the landing cells as pairs. -/
def NodeInv (graph : List (List String)) (rows cols tr tc : Int) (n : MazeNode) : Prop :=
  ∃ steps : List (Nat × String), ∃ ps ls : List (Int × Int),
    n.path = steps.map (fun s => stepLabel s.1 s.2) ∧
    replayData (0, 0) steps = some (ps, ls, (n.row, n.col)) ∧
    (∀ q ∈ ps, is_valid_bound q.1 q.2 rows cols = true) ∧
    ls.Nodup ∧
    (tr, tc) ∉ ls ∧
    n.explored = ls.reverse.map PyObj.pair ++ [PyObj.int 0] ∧
    pathColorOk graph (0, 0) steps ∧
    is_valid_bound n.row n.col rows cols = true

/-- Weight of a stack node for the termination measure: nodes pushed by a pop
are strictly deeper, and at most `max_depth` of them are pushed per pop. -/
def nodeWeight (max_depth : Nat) (n : MazeNode) : Nat :=
  (max_depth + 1) ^ (max_depth - n.depth)

def stackWeight (max_depth : Nat) (stack : List MazeNode) : Nat :=
  (stack.map (nodeWeight max_depth)).sum

/-- The example grid of the source documentation (lines 23-27). -/
def exampleGrid : List (List String) :=
  [ [ "B-S", "R-E", "B-SE", "B-SW" ],
    [ "R-E", "B-E", "R-S", "R-S" ],
    [ "R-N", "R-NE", "B-N", "O" ] ]

/-- The example grid with the bare "O" target token replaced by "B-O", so that
every token carries a recognized direction (the bare "O" slices to direction
"" which the dictionary does not know; the cell is the target and its
direction is never read, so the solver's answer is unchanged). -/
def exampleGridWF : List (List String) :=
  [ [ "B-S", "R-E", "B-SE", "B-SW" ],
    [ "R-E", "B-E", "R-S", "R-S" ],
    [ "R-N", "R-NE", "B-N", "B-O" ] ]

/-- A 3 by 3 grid on which the returned path steps through the cell (1, 1)
twice: once inside its "2E" run and once inside its "2S" run.  Only branch
landings enter the explored set, so intermediate cells of a run can be
re-crossed by a later run. -/
def crossGrid : List (List String) :=
  [ [ "B-S", "R-S", "G-W" ],
    [ "R-E", "R-E", "B-N" ],
    [ "B-N", "B-E", "B-O" ] ]

/-! ### Basic facts about grid lookups on well-formed grids -/

theorem wellFormedGrid_spec (graph : List (List String)) (rows cols : Int)
    (hwf : wellFormedGrid graph rows cols = true) :
    (graph.length : Int) = rows ∧ 1 ≤ rows ∧ 1 ≤ cols ∧
      ∀ r ∈ graph, (r.length : Int) = cols ∧
        ∀ t ∈ r, recognizedDir (tokenDir t) = true := by
  unfold wellFormedGrid at hwf
  simp only [Bool.and_eq_true, decide_eq_true_eq, List.all_eq_true] at hwf
  obtain ⟨⟨⟨hlen, hr1⟩, hc1⟩, hall⟩ := hwf
  refine ⟨hlen, hr1, hc1, ?_⟩
  intro r hr
  have := hall r hr
  simp only [Bool.and_eq_true, decide_eq_true_eq, List.all_eq_true] at this
  exact this

theorem wf_cell (graph : List (List String)) (rows cols r c : Int)
    (hwf : wellFormedGrid graph rows cols = true)
    (hb : is_valid_bound r c rows cols = true) :
    ∃ t, gridAt graph r c = some t ∧ recognizedDir (tokenDir t) = true := by
  obtain ⟨hlen, _, _, hall⟩ := wellFormedGrid_spec graph rows cols hwf
  unfold is_valid_bound at hb
  simp only [Bool.and_eq_true, decide_eq_true_eq] at hb
  obtain ⟨⟨⟨hr0, hrlt⟩, hc0⟩, hclt⟩ := hb
  have hrow : r.toNat < graph.length := by omega
  obtain ⟨row, hrow_eq⟩ : ∃ row, graph.get? r.toNat = some row :=
    ⟨_, List.get?_eq_get hrow⟩
  have hrow_mem : row ∈ graph := List.get?_mem hrow_eq
  obtain ⟨hrlen, hrall⟩ := hall row hrow_mem
  have hcol : c.toNat < row.length := by omega
  obtain ⟨cell, hcell_eq⟩ : ∃ cell, row.get? c.toNat = some cell :=
    ⟨_, List.get?_eq_get hcol⟩
  have hcell_mem : cell ∈ row := List.get?_mem hcell_eq
  refine ⟨cell, ?_, hrall cell hcell_mem⟩
  have h1 : pyIndex graph r = some row := by unfold pyIndex; rw [if_pos hr0]; exact hrow_eq
  have h2 : pyIndex row c = some cell := by unfold pyIndex; rw [if_pos hc0]; exact hcell_eq
  simp only [gridAt, h1, h2]

theorem wf_origin_in_bounds (graph : List (List String)) (rows cols : Int)
    (hwf : wellFormedGrid graph rows cols = true) :
    is_valid_bound 0 0 rows cols = true := by
  obtain ⟨_, hr1, hc1, _⟩ := wellFormedGrid_spec graph rows cols hwf
  unfold is_valid_bound
  simp only [Bool.and_eq_true, decide_eq_true_eq]
  omega

/-! ### Shape of the nodes pushed by one run of the inner loop -/

theorem innerLoop_pushed_shape (graph : List (List String)) (fr fc : Int)
    (maxd : Nat) (tr tc : Int) (cur_dir cur_color : String)
    (explored : List PyObj) (path : List String) (depth : Nat) :
    ∀ (remaining : Nat) (row col : Int) (count : Nat) (ns : List MazeNode),
      innerLoop graph fr fc maxd tr tc cur_dir cur_color explored path depth
        row col count remaining = .pushed ns →
      ns.length ≤ remaining ∧
        ∀ m ∈ ns, m.depth = depth + 1 ∧ depth < maxd ∧
          is_valid_bound m.row m.col fr fc = true := by
  intro remaining
  induction remaining with
  | zero =>
    intro row col count ns h
    simp only [innerLoop] at h
    injection h with h
    subst h
    simp
  | succ n ih =>
    intro row col count ns h
    cases hg : get_next_position cur_dir row col with
    | none =>
      simp only [innerLoop, hg] at h
      exact InnerRes.noConfusion h
    | some q =>
      obtain ⟨nr, nc⟩ := q
      simp only [innerLoop, hg] at h
      by_cases hb : is_valid_bound nr nc fr fc
      · rw [if_pos hb] at h
        cases hc : gridAt graph nr nc with
        | none =>
          simp only [hc] at h
          exact InnerRes.noConfusion h
        | some next_cell =>
          simp only [hc] at h
          by_cases ht : nr = tr ∧ nc = tc
          · rw [if_pos ht] at h
            simp at h
          · rw [if_neg ht] at h
            by_cases hcond : tokenColor next_cell ≠ cur_color ∧
                PyObj.pair (nr, nc) ∉ explored ∧ depth < maxd
            · rw [if_pos hcond] at h
              by_cases hm : manhattan_distance nr nc tr tc ≤ (maxd : Int) - (count : Int)
              · rw [if_pos hm] at h
                cases hrest : innerLoop graph fr fc maxd tr tc cur_dir cur_color
                    explored path depth nr nc (count + 1) n with
                | found p => rw [hrest] at h; simp at h
                | error e => rw [hrest] at h; simp at h
                | pushed ns' =>
                  rw [hrest] at h
                  injection h with h
                  subst h
                  obtain ⟨hlen, hall⟩ := ih nr nc (count + 1) ns' hrest
                  refine ⟨by simpa using Nat.succ_le_succ hlen, ?_⟩
                  intro m hm'
                  rcases List.mem_cons.mp hm' with hm' | hm'
                  · subst hm'
                    exact ⟨rfl, hcond.2.2, hb⟩
                  · exact hall m hm'
              · rw [if_neg hm] at h
                obtain ⟨hlen, hall⟩ := ih nr nc (count + 1) ns h
                exact ⟨Nat.le_succ_of_le hlen, hall⟩
            · rw [if_neg hcond] at h
              obtain ⟨hlen, hall⟩ := ih nr nc (count + 1) ns h
              exact ⟨Nat.le_succ_of_le hlen, hall⟩
      · rw [if_neg hb] at h
        injection h with h
        subst h
        simp

/-! ### Termination: a fuel bound on the outer loop -/

theorem stackWeight_cons (maxd : Nat) (m : MazeNode) (l : List MazeNode) :
    stackWeight maxd (m :: l) = nodeWeight maxd m + stackWeight maxd l := by
  simp [stackWeight]

theorem stackWeight_append (maxd : Nat) (a b : List MazeNode) :
    stackWeight maxd (a ++ b) = stackWeight maxd a + stackWeight maxd b := by
  simp [stackWeight]

theorem stackWeight_reverse (maxd : Nat) (l : List MazeNode) :
    stackWeight maxd l.reverse = stackWeight maxd l := by
  simp only [stackWeight, List.map_reverse, List.sum_reverse]

theorem stackWeight_lt_of_shape (maxd depth : Nat) (ns : List MazeNode)
    (hlen : ns.length ≤ maxd)
    (hall : ∀ m ∈ ns, m.depth = depth + 1 ∧ depth < maxd) :
    stackWeight maxd ns < (maxd + 1) ^ (maxd - depth) := by
  cases ns with
  | nil =>
    have : (0 : Nat) < (maxd + 1) ^ (maxd - depth) := pow_pos (by omega) _
    simp only [stackWeight, List.map_nil, List.sum_nil]
    exact this
  | cons m ms =>
    have hd : depth < maxd := (hall m (List.mem_cons_self m ms)).2
    have hw : ∀ x ∈ (m :: ms).map (nodeWeight maxd),
        x = (maxd + 1) ^ (maxd - (depth + 1)) := by
      intro x hx
      obtain ⟨y, hy, rfl⟩ := List.mem_map.mp hx
      obtain ⟨h1, _⟩ := hall y hy
      simp [nodeWeight, h1]
    have hsum : stackWeight maxd (m :: ms) =
        (m :: ms).length * (maxd + 1) ^ (maxd - (depth + 1)) := by
      unfold stackWeight
      rw [List.sum_eq_card_nsmul _ _ hw]
      simp [mul_comm]
    rw [hsum]
    have hexp : maxd - depth = (maxd - (depth + 1)) + 1 := by omega
    rw [hexp, pow_succ]
    have hpos : 0 < (maxd + 1) ^ (maxd - (depth + 1)) := pow_pos (by omega) _
    calc (m :: ms).length * (maxd + 1) ^ (maxd - (depth + 1))
        ≤ maxd * (maxd + 1) ^ (maxd - (depth + 1)) :=
          Nat.mul_le_mul_right _ hlen
      _ < (maxd + 1) * (maxd + 1) ^ (maxd - (depth + 1)) :=
          Nat.mul_lt_mul_of_lt_of_le (by omega) (le_refl _) hpos
      _ = (maxd + 1) ^ (maxd - (depth + 1)) * (maxd + 1) := by ring

theorem exploreLoop_no_fuelOut (graph : List (List String)) (fr fc : Int)
    (maxd : Nat) (tr tc : Int) :
    ∀ (fuel : Nat) (stack : List MazeNode), stackWeight maxd stack < fuel →
      exploreLoop graph fr fc maxd tr tc stack fuel ≠ .fuelOut := by
  intro fuel
  induction fuel with
  | zero => intro stack h; exact absurd h (Nat.not_lt_zero _)
  | succ f ih =>
    intro stack h
    cases stack with
    | nil => simp [exploreLoop]
    | cons cur rest =>
      simp only [exploreLoop]
      cases hc : gridAt graph cur.row cur.col with
      | none => simp [hc]
      | some cell =>
        simp only [hc]
        cases hi : innerLoop graph fr fc maxd tr tc (tokenDir cell) (tokenColor cell)
            cur.explored cur.path cur.depth cur.row cur.col 1 maxd with
        | found p => simp [hi]
        | error e => simp [hi]
        | pushed ns =>
          simp only [hi]
          obtain ⟨hlen, hall⟩ := innerLoop_pushed_shape graph fr fc maxd tr tc
            (tokenDir cell) (tokenColor cell) cur.explored cur.path cur.depth
            maxd cur.row cur.col 1 ns hi
          apply ih
          rw [stackWeight_append, stackWeight_reverse]
          have hns : stackWeight maxd ns < nodeWeight maxd cur :=
            stackWeight_lt_of_shape maxd cur.depth ns hlen
              (fun m hm => ⟨(hall m hm).1, (hall m hm).2.1⟩)
          rw [stackWeight_cons] at h
          omega

/-! ### Fuel monotonicity: enough fuel gives a fuel-independent result -/

theorem exploreLoop_mono (graph : List (List String)) (fr fc : Int)
    (maxd : Nat) (tr tc : Int) :
    ∀ (fuel : Nat) (stack : List MazeNode) (fuel' : Nat),
      exploreLoop graph fr fc maxd tr tc stack fuel ≠ .fuelOut → fuel ≤ fuel' →
      exploreLoop graph fr fc maxd tr tc stack fuel' =
        exploreLoop graph fr fc maxd tr tc stack fuel := by
  intro fuel
  induction fuel with
  | zero =>
    intro stack f' h _
    exact absurd (by simp [exploreLoop]) h
  | succ f ih =>
    intro stack f' h hle
    obtain ⟨f'', rfl⟩ : ∃ f'', f' = f'' + 1 := ⟨f' - 1, by omega⟩
    cases stack with
    | nil => simp [exploreLoop]
    | cons cur rest =>
      simp only [exploreLoop] at h ⊢
      cases hc : gridAt graph cur.row cur.col with
      | none => simp [hc]
      | some cell =>
        simp only [hc] at h ⊢
        cases hi : innerLoop graph fr fc maxd tr tc (tokenDir cell) (tokenColor cell)
            cur.explored cur.path cur.depth cur.row cur.col 1 maxd with
        | found p => simp [hi]
        | error e => simp [hi]
        | pushed ns =>
          simp only [hi] at h ⊢
          exact ih (ns.reverse ++ rest) f'' h (by omega)

/-! ### The search raises no exception on a well-formed grid -/

theorem get_next_position_isSome (d : String) (row col : Int)
    (h : recognizedDir d = true) : ∃ q, get_next_position d row col = some q := by
  unfold recognizedDir at h
  unfold get_next_position
  cases hl : directionsLookup (pyUpper d) with
  | none => rw [hl] at h; simp at h
  | some q =>
    obtain ⟨di, dj⟩ := q
    exact ⟨(row + di, col + dj), by simp [get_next_position, hl]⟩

theorem innerLoop_no_error (graph : List (List String)) (rows cols : Int)
    (maxd : Nat) (tr tc : Int) (cur_dir cur_color : String)
    (explored : List PyObj) (path : List String) (depth : Nat)
    (hwf : wellFormedGrid graph rows cols = true)
    (hdir : recognizedDir cur_dir = true) :
    ∀ (remaining : Nat) (row col : Int) (count : Nat) (e : MazeErr),
      innerLoop graph rows cols maxd tr tc cur_dir cur_color explored path depth
        row col count remaining ≠ .error e := by
  intro remaining
  induction remaining with
  | zero =>
    intro row col count e h
    simp only [innerLoop] at h
    exact InnerRes.noConfusion h
  | succ n ih =>
    intro row col count e h
    obtain ⟨⟨nr, nc⟩, hg⟩ := get_next_position_isSome cur_dir row col hdir
    simp only [innerLoop, hg] at h
    by_cases hb : is_valid_bound nr nc rows cols
    · rw [if_pos hb] at h
      obtain ⟨next_cell, hc, _⟩ := wf_cell graph rows cols nr nc hwf hb
      simp only [hc] at h
      by_cases ht : nr = tr ∧ nc = tc
      · rw [if_pos ht] at h
        exact InnerRes.noConfusion h
      · rw [if_neg ht] at h
        by_cases hcond : tokenColor next_cell ≠ cur_color ∧
            PyObj.pair (nr, nc) ∉ explored ∧ depth < maxd
        · rw [if_pos hcond] at h
          by_cases hm : manhattan_distance nr nc tr tc ≤ (maxd : Int) - (count : Int)
          · rw [if_pos hm] at h
            cases hrest : innerLoop graph rows cols maxd tr tc cur_dir cur_color
                explored path depth nr nc (count + 1) n with
            | found p => rw [hrest] at h; exact InnerRes.noConfusion h
            | error e' => exact ih nr nc (count + 1) e' hrest
            | pushed ns' => rw [hrest] at h; exact InnerRes.noConfusion h
          · rw [if_neg hm] at h
            exact ih nr nc (count + 1) e h
        · rw [if_neg hcond] at h
          exact ih nr nc (count + 1) e h
    · rw [if_neg hb] at h
      exact InnerRes.noConfusion h

theorem exploreLoop_no_error (graph : List (List String)) (rows cols : Int)
    (maxd : Nat) (tr tc : Int)
    (hwf : wellFormedGrid graph rows cols = true) :
    ∀ (fuel : Nat) (stack : List MazeNode),
      (∀ n ∈ stack, is_valid_bound n.row n.col rows cols = true) →
      ∀ e, exploreLoop graph rows cols maxd tr tc stack fuel ≠ .error e := by
  intro fuel
  induction fuel with
  | zero =>
    intro stack _ e h
    simp only [exploreLoop] at h
    exact ExpRes.noConfusion h
  | succ f ih =>
    intro stack hstack e h
    cases stack with
    | nil =>
      simp only [exploreLoop] at h
      exact ExpRes.noConfusion h
    | cons cur rest =>
      have hcur : is_valid_bound cur.row cur.col rows cols = true :=
        hstack cur (List.mem_cons_self cur rest)
      obtain ⟨cell, hc, hrec⟩ := wf_cell graph rows cols cur.row cur.col hwf hcur
      simp only [exploreLoop, hc] at h
      cases hi : innerLoop graph rows cols maxd tr tc (tokenDir cell) (tokenColor cell)
          cur.explored cur.path cur.depth cur.row cur.col 1 maxd with
      | found p => rw [hi] at h; exact ExpRes.noConfusion h
      | error e' =>
        exact innerLoop_no_error graph rows cols maxd tr tc (tokenDir cell)
          (tokenColor cell) cur.explored cur.path cur.depth hwf hrec
          maxd cur.row cur.col 1 e' hi
      | pushed ns =>
        rw [hi] at h
        obtain ⟨_, hall⟩ := innerLoop_pushed_shape graph rows cols maxd tr tc
          (tokenDir cell) (tokenColor cell) cur.explored cur.path cur.depth
          maxd cur.row cur.col 1 ns hi
        refine ih (ns.reverse ++ rest) ?_ e h
        intro n hn
        rcases List.mem_append.mp hn with hn | hn
        · exact (hall n (List.mem_reverse.mp hn)).2.2
        · exact hstack n (List.mem_cons_of_mem cur hn)

theorem explore_no_error (graph : List (List String)) (rows cols : Int)
    (maxd : Nat) (tr tc : Int) (fuel : Nat)
    (hwf : wellFormedGrid graph rows cols = true) (e : MazeErr) :
    explore_maze_depth_limited graph rows cols maxd tr tc fuel ≠ .error e := by
  apply exploreLoop_no_error graph rows cols maxd tr tc hwf fuel [initialNode]
  intro n hn
  rcases List.mem_singleton.mp hn with rfl
  exact wf_origin_in_bounds graph rows cols hwf

/-! ### Found paths are nonempty strings (needed because the Python driver
tests the result with `if result:`, which is false for the empty string) -/

theorem toDigitsCore_length_ge (b : Nat) :
    ∀ (fuel n : Nat) (ds : List Char),
      ds.length ≤ (Nat.toDigitsCore b fuel n ds).length := by
  intro fuel
  induction fuel with
  | zero => intro n ds; simp [Nat.toDigitsCore]
  | succ f ih =>
    intro n ds
    rw [Nat.toDigitsCore]
    by_cases h : n / b = 0
    · rw [if_pos h]; simp
    · rw [if_neg h]
      calc ds.length ≤ ((n % b).digitChar :: ds).length := by simp
        _ ≤ _ := ih (n / b) _

theorem toDigitsCore_length_succ (b f n : Nat) (ds : List Char) :
    ds.length + 1 ≤ (Nat.toDigitsCore b (f + 1) n ds).length := by
  rw [Nat.toDigitsCore]
  by_cases h : n / b = 0
  · rw [if_pos h]; simp
  · rw [if_neg h]
    calc ds.length + 1 = ((n % b).digitChar :: ds).length := by simp
      _ ≤ _ := toDigitsCore_length_ge b f (n / b) _

theorem toString_nat_length_pos (n : Nat) : 0 < (toString n).length := by
  have h := toDigitsCore_length_succ 10 n n []
  simp only [List.length_nil, Nat.zero_add] at h
  have heq : (toString n).length = (Nat.toDigitsCore 10 (n + 1) n []).length := rfl
  omega

theorem intercalate_go_length (s : String) :
    ∀ (as : List String) (acc₁ acc₂ : String), acc₂.length ≤ acc₁.length →
      (as.getLastD acc₂).length ≤ (String.intercalate.go acc₁ s as).length := by
  intro as
  induction as with
  | nil => intro a1 a2 h; simpa [String.intercalate.go]
  | cons a as ih =>
    intro a1 a2 h
    rw [String.intercalate.go]
    rw [List.getLastD_cons]
    apply ih
    simp [String.length_append]

theorem intercalate_concat_length (s : String) (xs : List String) (l : String) :
    l.length ≤ (String.intercalate s (xs ++ [l])).length := by
  cases xs with
  | nil =>
    simp only [List.nil_append]
    rw [String.intercalate]
    have := intercalate_go_length s [] l l (le_refl _)
    simpa using this
  | cons x xs' =>
    simp only [List.cons_append]
    rw [String.intercalate]
    have := intercalate_go_length s (xs' ++ [l]) x x (le_refl _)
    rwa [List.getLastD_eq_getLast?, List.getLast?_concat] at this

theorem intercalate_stepLabel_ne_empty (xs : List String) (k : Nat) (d : String) :
    String.intercalate " " (xs ++ [stepLabel k d]) ≠ "" := by
  intro h
  have h1 := intercalate_concat_length " " xs (stepLabel k d)
  rw [h] at h1
  have h2 := toString_nat_length_pos k
  have h3 : (stepLabel k d).length = (toString k).length + d.length :=
    String.length_append _ _
  simp only [String.length_empty] at h1
  omega

theorem innerLoop_found_shape (graph : List (List String)) (fr fc : Int)
    (maxd : Nat) (tr tc : Int) (cur_dir cur_color : String)
    (explored : List PyObj) (path : List String) (depth : Nat) :
    ∀ (remaining : Nat) (row col : Int) (count : Nat) (p : String),
      innerLoop graph fr fc maxd tr tc cur_dir cur_color explored path depth
        row col count remaining = .found p →
      ∃ k, p = String.intercalate " " (path ++ [stepLabel k cur_dir]) := by
  intro remaining
  induction remaining with
  | zero =>
    intro row col count p h
    simp only [innerLoop] at h
    exact InnerRes.noConfusion h
  | succ n ih =>
    intro row col count p h
    cases hg : get_next_position cur_dir row col with
    | none =>
      simp only [innerLoop, hg] at h
      exact InnerRes.noConfusion h
    | some q =>
      obtain ⟨nr, nc⟩ := q
      simp only [innerLoop, hg] at h
      by_cases hb : is_valid_bound nr nc fr fc
      · rw [if_pos hb] at h
        cases hc : gridAt graph nr nc with
        | none =>
          simp only [hc] at h
          exact InnerRes.noConfusion h
        | some next_cell =>
          simp only [hc] at h
          by_cases ht : nr = tr ∧ nc = tc
          · rw [if_pos ht] at h
            injection h with h
            exact ⟨count, h.symm⟩
          · rw [if_neg ht] at h
            by_cases hcond : tokenColor next_cell ≠ cur_color ∧
                PyObj.pair (nr, nc) ∉ explored ∧ depth < maxd
            · rw [if_pos hcond] at h
              by_cases hm : manhattan_distance nr nc tr tc ≤ (maxd : Int) - (count : Int)
              · rw [if_pos hm] at h
                cases hrest : innerLoop graph fr fc maxd tr tc cur_dir cur_color
                    explored path depth nr nc (count + 1) n with
                | found p' =>
                  rw [hrest] at h
                  injection h with h
                  subst h
                  exact ih nr nc (count + 1) p' hrest
                | error e' => rw [hrest] at h; exact InnerRes.noConfusion h
                | pushed ns' => rw [hrest] at h; exact InnerRes.noConfusion h
              · rw [if_neg hm] at h
                exact ih nr nc (count + 1) p h
            · rw [if_neg hcond] at h
              exact ih nr nc (count + 1) p h
      · rw [if_neg hb] at h
        exact InnerRes.noConfusion h

theorem exploreLoop_found_shape (graph : List (List String)) (fr fc : Int)
    (maxd : Nat) (tr tc : Int) :
    ∀ (fuel : Nat) (stack : List MazeNode) (p : String),
      exploreLoop graph fr fc maxd tr tc stack fuel = .found p →
      ∃ pre k d, p = String.intercalate " " (pre ++ [stepLabel k d]) := by
  intro fuel
  induction fuel with
  | zero =>
    intro stack p h
    simp only [exploreLoop] at h
    exact ExpRes.noConfusion h
  | succ f ih =>
    intro stack p h
    cases stack with
    | nil =>
      simp only [exploreLoop] at h
      exact ExpRes.noConfusion h
    | cons cur rest =>
      simp only [exploreLoop] at h
      cases hc : gridAt graph cur.row cur.col with
      | none =>
        simp only [hc] at h
        exact ExpRes.noConfusion h
      | some cell =>
        simp only [hc] at h
        cases hi : innerLoop graph fr fc maxd tr tc (tokenDir cell) (tokenColor cell)
            cur.explored cur.path cur.depth cur.row cur.col 1 maxd with
        | found p' =>
          rw [hi] at h
          injection h with h
          subst h
          obtain ⟨k, hk⟩ := innerLoop_found_shape graph fr fc maxd tr tc
            (tokenDir cell) (tokenColor cell) cur.explored cur.path cur.depth
            maxd cur.row cur.col 1 p' hi
          exact ⟨cur.path, k, tokenDir cell, hk⟩
        | error e => rw [hi] at h; exact ExpRes.noConfusion h
        | pushed ns =>
          rw [hi] at h
          exact ih (ns.reverse ++ rest) p h

theorem explore_found_ne_empty (graph : List (List String)) (fr fc : Int)
    (maxd : Nat) (tr tc : Int) (fuel : Nat) (p : String)
    (h : explore_maze_depth_limited graph fr fc maxd tr tc fuel = .found p) :
    p ≠ "" := by
  obtain ⟨pre, k, d, hk⟩ := exploreLoop_found_shape graph fr fc maxd tr tc
    fuel [initialNode] p h
  rw [hk]
  exact intercalate_stepLabel_ne_empty pre k d

/-! ### Analysis of the iterative deepening driver -/

theorem explore_mono (graph : List (List String)) (fr fc : Int) (maxd : Nat)
    (tr tc : Int) (fuel fuel' : Nat)
    (h : explore_maze_depth_limited graph fr fc maxd tr tc fuel ≠ .fuelOut)
    (hle : fuel ≤ fuel') :
    explore_maze_depth_limited graph fr fc maxd tr tc fuel' =
      explore_maze_depth_limited graph fr fc maxd tr tc fuel :=
  exploreLoop_mono graph fr fc maxd tr tc fuel [initialNode] fuel' h hle

theorem iddfsAux_path (graph : List (List String)) (rows cols tr tc : Int)
    (fuel : Nat) :
    ∀ (attempts maxd : Nat) (p : String),
      iddfsAux graph rows cols tr tc fuel maxd attempts = .path p →
      ∃ d, maxd ≤ d ∧ d < maxd + attempts ∧
        explore_maze_depth_limited graph rows cols d tr tc fuel = .found p ∧
        ∀ d', maxd ≤ d' → d' < d →
          explore_maze_depth_limited graph rows cols d' tr tc fuel = .notFound := by
  intro attempts
  induction attempts with
  | zero =>
    intro maxd p h
    simp only [iddfsAux] at h
    exact SolveRes.noConfusion h
  | succ a ih =>
    intro maxd p h
    simp only [iddfsAux] at h
    cases he : explore_maze_depth_limited graph rows cols maxd tr tc fuel with
    | found q =>
      simp only [he] at h
      have hq : q ≠ "" := explore_found_ne_empty graph rows cols maxd tr tc fuel q he
      rw [if_neg hq] at h
      injection h with h
      subst h
      exact ⟨maxd, le_refl _, by omega, he, fun d' h1 h2 => absurd h1 (by omega)⟩
    | notFound =>
      simp only [he] at h
      obtain ⟨d, hd1, hd2, hd3, hd4⟩ := ih (maxd + 1) p h
      refine ⟨d, by omega, by omega, hd3, ?_⟩
      intro d' h1 h2
      by_cases hd' : d' = maxd
      · subst hd'; exact he
      · exact hd4 d' (by omega) h2
    | error e =>
      simp only [he] at h
      exact SolveRes.noConfusion h
    | fuelOut =>
      simp only [he] at h
      exact SolveRes.noConfusion h

theorem iddfsAux_noSolution (graph : List (List String)) (rows cols tr tc : Int)
    (fuel : Nat) :
    ∀ (attempts maxd : Nat),
      iddfsAux graph rows cols tr tc fuel maxd attempts = .noSolution →
      ∀ d, maxd ≤ d → d < maxd + attempts →
        explore_maze_depth_limited graph rows cols d tr tc fuel = .notFound := by
  intro attempts
  induction attempts with
  | zero => intro maxd _ d h1 h2; omega
  | succ a ih =>
    intro maxd h d h1 h2
    simp only [iddfsAux] at h
    cases he : explore_maze_depth_limited graph rows cols maxd tr tc fuel with
    | found q =>
      simp only [he] at h
      have hq : q ≠ "" := explore_found_ne_empty graph rows cols maxd tr tc fuel q he
      rw [if_neg hq] at h
      exact SolveRes.noConfusion h
    | notFound =>
      simp only [he] at h
      by_cases hd' : d = maxd
      · subst hd'; exact he
      · exact ih (maxd + 1) h d (by omega) (by omega)
    | error e =>
      simp only [he] at h
      exact SolveRes.noConfusion h
    | fuelOut =>
      simp only [he] at h
      exact SolveRes.noConfusion h

theorem iddfsAux_no_error (graph : List (List String)) (rows cols tr tc : Int)
    (fuel : Nat) (hwf : wellFormedGrid graph rows cols = true) :
    ∀ (attempts maxd : Nat) (e : MazeErr),
      iddfsAux graph rows cols tr tc fuel maxd attempts ≠ .error e := by
  intro attempts
  induction attempts with
  | zero =>
    intro maxd e h
    simp only [iddfsAux] at h
    exact SolveRes.noConfusion h
  | succ a ih =>
    intro maxd e h
    simp only [iddfsAux] at h
    cases he : explore_maze_depth_limited graph rows cols maxd tr tc fuel with
    | found q =>
      simp only [he] at h
      have hq : q ≠ "" := explore_found_ne_empty graph rows cols maxd tr tc fuel q he
      rw [if_neg hq] at h
      exact SolveRes.noConfusion h
    | notFound =>
      simp only [he] at h
      exact ih (maxd + 1) e h
    | error e' =>
      exact explore_no_error graph rows cols maxd tr tc fuel hwf e' he
    | fuelOut =>
      simp only [he] at h
      exact SolveRes.noConfusion h

theorem iddfsAux_mono (graph : List (List String)) (rows cols tr tc : Int)
    (fuel : Nat) :
    ∀ (attempts maxd : Nat) (fuel' : Nat),
      iddfsAux graph rows cols tr tc fuel maxd attempts ≠ .fuelOut → fuel ≤ fuel' →
      iddfsAux graph rows cols tr tc fuel' maxd attempts =
        iddfsAux graph rows cols tr tc fuel maxd attempts := by
  intro attempts
  induction attempts with
  | zero => intro maxd fuel' _ _; simp [iddfsAux]
  | succ a ih =>
    intro maxd fuel' h hle
    simp only [iddfsAux] at h ⊢
    cases he : explore_maze_depth_limited graph rows cols maxd tr tc fuel with
    | found q =>
      have hmono := explore_mono graph rows cols maxd tr tc fuel fuel'
        (by rw [he]; exact fun hx => ExpRes.noConfusion hx) hle
      simp only [hmono, he]
      simp only [he] at h
      by_cases hq : q = ""
      · simp only [if_pos hq] at h ⊢
        exact ih (maxd + 1) fuel' h hle
      · simp only [if_neg hq]
    | notFound =>
      have hmono := explore_mono graph rows cols maxd tr tc fuel fuel'
        (by rw [he]; exact fun hx => ExpRes.noConfusion hx) hle
      simp only [hmono, he]
      simp only [he] at h
      exact ih (maxd + 1) fuel' h hle
    | error e =>
      have hmono := explore_mono graph rows cols maxd tr tc fuel fuel'
        (by rw [he]; exact fun hx => ExpRes.noConfusion hx) hle
      simp only [hmono, he]
    | fuelOut =>
      simp only [he] at h
      exact absurd rfl h

theorem solve_mono (graph : List (List String)) (rows cols : Int) (fuel fuel' : Nat)
    (h : solve_maze_from_file graph rows cols fuel ≠ .fuelOut) (hle : fuel ≤ fuel') :
    solve_maze_from_file graph rows cols fuel' =
      solve_maze_from_file graph rows cols fuel :=
  iddfsAux_mono graph rows cols (rows - 1) (cols - 1) fuel (rows * cols).toNat 1
    fuel' h hle

/-! ### Replay lemmas -/

theorem runPositions_succ_none (d : String) (p : Int × Int) (k : Nat)
    (h : get_next_position d p.1 p.2 = none) :
    runPositions d p (k + 1) = none := by
  simp only [runPositions, h]

theorem runPositions_succ (d : String) (p : Int × Int) (k : Nat) (q : Int × Int)
    (h : get_next_position d p.1 p.2 = some q) :
    runPositions d p (k + 1) = (runPositions d q k).map (fun qs => q :: qs) := by
  simp only [runPositions, h]
  cases runPositions d q k <;> rfl

theorem runPositions_length (d : String) :
    ∀ (k : Nat) (p : Int × Int) (l : List (Int × Int)),
      runPositions d p k = some l → l.length = k := by
  intro k
  induction k with
  | zero =>
    intro p l h
    simp only [runPositions] at h
    injection h with h
    subst h
    rfl
  | succ k ih =>
    intro p l h
    cases hg : get_next_position d p.1 p.2 with
    | none => rw [runPositions_succ_none d p k hg] at h; exact Option.noConfusion h
    | some q =>
      rw [runPositions_succ d p k q hg] at h
      cases hr : runPositions d q k with
      | none => rw [hr] at h; exact Option.noConfusion h
      | some qs =>
        rw [hr] at h
        injection h with h
        subst h
        simp [ih q qs hr]

theorem runPositions_snoc (d : String) :
    ∀ (k : Nat) (p : Int × Int) (rs : List (Int × Int)) (y : Int × Int),
      runPositions d p k = some rs →
      get_next_position d (rs.getLastD p).1 (rs.getLastD p).2 = some y →
      runPositions d p (k + 1) = some (rs ++ [y]) := by
  intro k
  induction k with
  | zero =>
    intro p rs y h hy
    simp only [runPositions] at h
    injection h with h
    subst h
    simp only [List.getLastD_nil] at hy
    rw [runPositions_succ d p 0 y hy]
    simp [runPositions]
  | succ k ih =>
    intro p rs y h hy
    cases hg : get_next_position d p.1 p.2 with
    | none => rw [runPositions_succ_none d p k hg] at h; exact Option.noConfusion h
    | some q =>
      rw [runPositions_succ d p k q hg] at h
      cases hr : runPositions d q k with
      | none => rw [hr] at h; exact Option.noConfusion h
      | some qs =>
        rw [hr] at h
        injection h with h
        subst h
        rw [List.getLastD_cons] at hy
        have hstep := ih q qs y hr hy
        rw [runPositions_succ d p (k + 1) q hg, hstep]
        rfl

theorem replayData_cons (p : Int × Int) (k : Nat) (d : String)
    (steps : List (Nat × String)) :
    replayData p ((k, d) :: steps) =
      match runPositions d p k with
      | none => none
      | some qs =>
        match qs.getLast? with
        | none => none
        | some q =>
          match replayData q steps with
          | none => none
          | some (ps, ls, e) => some (qs ++ ps, q :: ls, e) := rfl

theorem replayData_append (d : String) (k : Nat) :
    ∀ (steps : List (Nat × String)) (p : Int × Int) (ps ls : List (Int × Int))
      (e : Int × Int) (qs : List (Int × Int)) (q : Int × Int),
      replayData p steps = some (ps, ls, e) →
      runPositions d e k = some qs →
      qs.getLast? = some q →
      replayData p (steps ++ [(k, d)]) = some (ps ++ qs, ls ++ [q], q) := by
  intro steps
  induction steps with
  | nil =>
    intro p ps ls e qs q h hrun hlast
    simp only [replayData, Option.some.injEq, Prod.mk.injEq] at h
    obtain ⟨h1, h2, h3⟩ := h
    subst h1; subst h2; subst h3
    simp only [List.nil_append]
    rw [replayData_cons]
    simp only [hrun, hlast]
    simp [replayData]
  | cons s steps ih =>
    intro p ps ls e qs q h hrun hlast
    obtain ⟨k', d'⟩ := s
    rw [replayData_cons] at h
    cases hr : runPositions d' p k' with
    | none => simp only [hr] at h; exact Option.noConfusion h
    | some qs' =>
      simp only [hr] at h
      cases hl : qs'.getLast? with
      | none => simp only [hl] at h; exact Option.noConfusion h
      | some q' =>
        simp only [hl] at h
        cases hrd : replayData q' steps with
        | none => simp only [hrd] at h; exact Option.noConfusion h
        | some t =>
          obtain ⟨ps', ls', e'⟩ := t
          simp only [hrd, Option.some.injEq, Prod.mk.injEq] at h
          obtain ⟨h1, h2, h3⟩ := h
          subst h1; subst h2; subst h3
          have hih := ih q' ps' ls' e' qs q hrd hrun hlast
          simp only [List.cons_append]
          rw [replayData_cons]
          simp only [hr, hl, hih]
          simp

theorem pathColorOk_cons (graph : List (List String)) (p : Int × Int) (k : Nat)
    (d : String) (steps : List (Nat × String)) :
    pathColorOk graph p ((k, d) :: steps) =
      (match runPositions d p k with
      | none => False
      | some qs =>
        match qs.getLast? with
        | none => False
        | some q =>
          (∃ a b, gridAt graph p.1 p.2 = some a ∧ gridAt graph q.1 q.2 = some b ∧
            tokenColor b ≠ tokenColor a) ∧ pathColorOk graph q steps) := rfl

theorem pathColorOk_append (graph : List (List String)) (d : String) (k : Nat) :
    ∀ (steps : List (Nat × String)) (p : Int × Int) (ps ls : List (Int × Int))
      (e : Int × Int) (qs : List (Int × Int)) (q : Int × Int),
      pathColorOk graph p steps →
      replayData p steps = some (ps, ls, e) →
      runPositions d e k = some qs →
      qs.getLast? = some q →
      (∃ a b, gridAt graph e.1 e.2 = some a ∧ gridAt graph q.1 q.2 = some b ∧
        tokenColor b ≠ tokenColor a) →
      pathColorOk graph p (steps ++ [(k, d)]) := by
  intro steps
  induction steps with
  | nil =>
    intro p ps ls e qs q hok h hrun hlast hcol
    simp only [replayData, Option.some.injEq, Prod.mk.injEq] at h
    obtain ⟨h1, h2, h3⟩ := h
    subst h3
    simp only [List.nil_append]
    rw [pathColorOk_cons]
    simp only [hrun, hlast]
    exact ⟨hcol, trivial⟩
  | cons s steps ih =>
    intro p ps ls e qs q hok h hrun hlast hcol
    obtain ⟨k', d'⟩ := s
    rw [replayData_cons] at h
    rw [pathColorOk_cons] at hok
    cases hr : runPositions d' p k' with
    | none => simp only [hr] at h; exact Option.noConfusion h
    | some qs' =>
      simp only [hr] at h hok
      cases hl : qs'.getLast? with
      | none => simp only [hl] at h; exact Option.noConfusion h
      | some q' =>
        simp only [hl] at h hok
        cases hrd : replayData q' steps with
        | none => simp only [hrd] at h; exact Option.noConfusion h
        | some t =>
          obtain ⟨ps', ls', e'⟩ := t
          simp only [hrd, Option.some.injEq, Prod.mk.injEq] at h
          obtain ⟨h1, h2, h3⟩ := h
          subst h3
          simp only [List.cons_append]
          rw [pathColorOk_cons]
          simp only [hr, hl]
          exact ⟨hok.1, ih q' ps' ls' e' qs q hok.2 hrd hrun hlast hcol⟩

/-! ### Soundness of the inner loop with respect to the node invariant -/

theorem nodup_concat {α : Type} (l : List α) (x : α) (h : l.Nodup) (hx : x ∉ l) :
    (l ++ [x]).Nodup := by
  simp only [List.nodup_append, List.nodup_cons, List.not_mem_nil, not_false_iff,
    List.nodup_nil, and_true, true_and]
  refine ⟨h, ?_⟩
  intro a ha hax
  rcases List.mem_singleton.mp hax with rfl
  exact hx ha

theorem getLastD_concat {α : Type} (l : List α) (x d : α) :
    (l ++ [x]).getLastD d = x := by
  rw [List.getLastD_eq_getLast?, List.getLast?_concat]
  rfl

theorem pair_notin_explored {x : Int × Int} {ls : List (Int × Int)}
    (h : PyObj.pair x ∉ ls.reverse.map PyObj.pair ++ [PyObj.int 0]) : x ∉ ls := by
  intro hx
  apply h
  apply List.mem_append.mpr
  left
  exact List.mem_map.mpr ⟨x, List.mem_reverse.mpr hx, rfl⟩

theorem innerLoop_found_sound (graph : List (List String)) (rows cols : Int)
    (maxd : Nat) (tr tc : Int) (cur_dir cur_color : String)
    (explored : List PyObj) (path : List String) (depth : Nat)
    (steps : List (Nat × String)) (ps ls : List (Int × Int)) (q0r q0c : Int)
    (hpath : path = steps.map (fun s => stepLabel s.1 s.2))
    (hreplay : replayData (0, 0) steps = some (ps, ls, (q0r, q0c)))
    (hbounds : ∀ q ∈ ps, is_valid_bound q.1 q.2 rows cols = true)
    (hnodup : ls.Nodup)
    (htarget : (tr, tc) ∉ ls)
    (hcolor : pathColorOk graph (0, 0) steps)
    (h00 : is_valid_bound 0 0 rows cols = true) :
    ∀ (remaining count : Nat) (row col : Int) (rs : List (Int × Int)),
      1 ≤ count →
      runPositions cur_dir (q0r, q0c) (count - 1) = some rs →
      (∀ q ∈ rs, is_valid_bound q.1 q.2 rows cols = true) →
      rs.getLastD (q0r, q0c) = (row, col) →
      ∀ p, innerLoop graph rows cols maxd tr tc cur_dir cur_color explored path depth
          row col count remaining = .found p →
      FoundSound graph rows cols tr tc p := by
  intro remaining
  induction remaining with
  | zero =>
    intro count row col rs _ _ _ _ p h
    simp only [innerLoop] at h
    exact InnerRes.noConfusion h
  | succ n ih =>
    intro count row col rs hc1 hrun hrsb hlastD p h
    cases hg : get_next_position cur_dir row col with
    | none =>
      simp only [innerLoop, hg] at h
      exact InnerRes.noConfusion h
    | some x =>
      obtain ⟨nr, nc⟩ := x
      simp only [innerLoop, hg] at h
      by_cases hb : is_valid_bound nr nc rows cols
      · rw [if_pos hb] at h
        cases hcg : gridAt graph nr nc with
        | none =>
          simp only [hcg] at h
          exact InnerRes.noConfusion h
        | some next_cell =>
          simp only [hcg] at h
          have hsnoc : runPositions cur_dir (q0r, q0c) count = some (rs ++ [(nr, nc)]) := by
            have hs := runPositions_snoc cur_dir (count - 1) (q0r, q0c) rs (nr, nc)
              hrun (by rw [hlastD]; exact hg)
            have hcount : count - 1 + 1 = count := by omega
            rwa [hcount] at hs
          have hlast' : (rs ++ [(nr, nc)]).getLast? = some (nr, nc) :=
            List.getLast?_concat _
          have hbnd' : ∀ q ∈ rs ++ [(nr, nc)], is_valid_bound q.1 q.2 rows cols = true := by
            intro q hq
            rcases List.mem_append.mp hq with hq | hq
            · exact hrsb q hq
            · rcases List.mem_singleton.mp hq with rfl
              exact hb
          by_cases ht : nr = tr ∧ nc = tc
          · rw [if_pos ht] at h
            injection h with h
            obtain ⟨htr, htc⟩ := ht
            subst htr; subst htc
            refine ⟨steps, (count, cur_dir), ps ++ (rs ++ [(nr, nc)]), ls ++ [(nr, nc)],
              ?_, ?_, ?_, ?_, ?_⟩
            · rw [← h, hpath]
              simp [stepLabel]
            · exact replayData_append cur_dir count steps (0, 0) ps ls (q0r, q0c)
                (rs ++ [(nr, nc)]) (nr, nc) hreplay hsnoc hlast'
            · intro q hq
              rcases List.mem_cons.mp hq with rfl | hq
              · exact h00
              · rcases List.mem_append.mp hq with hq | hq
                · exact hbounds q hq
                · exact hbnd' q hq
            · exact nodup_concat ls (nr, nc) hnodup htarget
            · exact hcolor
          · rw [if_neg ht] at h
            have hnext : rs ++ [(nr, nc)] ≠ [] := by simp
            have hlastD' : (rs ++ [(nr, nc)]).getLastD (q0r, q0c) = (nr, nc) :=
              getLastD_concat rs (nr, nc) (q0r, q0c)
            by_cases hcond : tokenColor next_cell ≠ cur_color ∧
                PyObj.pair (nr, nc) ∉ explored ∧ depth < maxd
            · rw [if_pos hcond] at h
              by_cases hm : manhattan_distance nr nc tr tc ≤ (maxd : Int) - (count : Int)
              · rw [if_pos hm] at h
                cases hrest : innerLoop graph rows cols maxd tr tc cur_dir cur_color
                    explored path depth nr nc (count + 1) n with
                | found p' =>
                  rw [hrest] at h
                  injection h with h
                  subst h
                  exact ih (count + 1) nr nc (rs ++ [(nr, nc)]) (by omega) hsnoc
                    hbnd' hlastD' p' hrest
                | error e' => rw [hrest] at h; exact InnerRes.noConfusion h
                | pushed ns' => rw [hrest] at h; exact InnerRes.noConfusion h
              · rw [if_neg hm] at h
                exact ih (count + 1) nr nc (rs ++ [(nr, nc)]) (by omega) hsnoc
                  hbnd' hlastD' p h
            · rw [if_neg hcond] at h
              exact ih (count + 1) nr nc (rs ++ [(nr, nc)]) (by omega) hsnoc
                hbnd' hlastD' p h
      · rw [if_neg hb] at h
        exact InnerRes.noConfusion h

theorem innerLoop_pushed_inv (graph : List (List String)) (rows cols : Int)
    (maxd : Nat) (tr tc : Int) (cur_dir cur_color : String)
    (explored : List PyObj) (path : List String) (depth : Nat)
    (steps : List (Nat × String)) (ps ls : List (Int × Int)) (q0r q0c : Int)
    (cell0 : String)
    (hpath : path = steps.map (fun s => stepLabel s.1 s.2))
    (hreplay : replayData (0, 0) steps = some (ps, ls, (q0r, q0c)))
    (hbounds : ∀ q ∈ ps, is_valid_bound q.1 q.2 rows cols = true)
    (hnodup : ls.Nodup)
    (htarget : (tr, tc) ∉ ls)
    (hexp : explored = ls.reverse.map PyObj.pair ++ [PyObj.int 0])
    (hcolor : pathColorOk graph (0, 0) steps)
    (hcell : gridAt graph q0r q0c = some cell0)
    (hcc : cur_color = tokenColor cell0) :
    ∀ (remaining count : Nat) (row col : Int) (rs : List (Int × Int)),
      1 ≤ count →
      runPositions cur_dir (q0r, q0c) (count - 1) = some rs →
      (∀ q ∈ rs, is_valid_bound q.1 q.2 rows cols = true) →
      rs.getLastD (q0r, q0c) = (row, col) →
      ∀ ns, innerLoop graph rows cols maxd tr tc cur_dir cur_color explored path depth
          row col count remaining = .pushed ns →
      ∀ m ∈ ns, NodeInv graph rows cols tr tc m := by
  intro remaining
  induction remaining with
  | zero =>
    intro count row col rs _ _ _ _ ns h
    simp only [innerLoop] at h
    injection h with h
    subst h
    intro m hm
    exact absurd hm (List.not_mem_nil m)
  | succ n ih =>
    intro count row col rs hc1 hrun hrsb hlastD ns h
    cases hg : get_next_position cur_dir row col with
    | none =>
      simp only [innerLoop, hg] at h
      exact InnerRes.noConfusion h
    | some x =>
      obtain ⟨nr, nc⟩ := x
      simp only [innerLoop, hg] at h
      by_cases hb : is_valid_bound nr nc rows cols
      · rw [if_pos hb] at h
        cases hcg : gridAt graph nr nc with
        | none =>
          simp only [hcg] at h
          exact InnerRes.noConfusion h
        | some next_cell =>
          simp only [hcg] at h
          have hsnoc : runPositions cur_dir (q0r, q0c) count = some (rs ++ [(nr, nc)]) := by
            have hs := runPositions_snoc cur_dir (count - 1) (q0r, q0c) rs (nr, nc)
              hrun (by rw [hlastD]; exact hg)
            have hcount : count - 1 + 1 = count := by omega
            rwa [hcount] at hs
          have hlast' : (rs ++ [(nr, nc)]).getLast? = some (nr, nc) :=
            List.getLast?_concat _
          have hbnd' : ∀ q ∈ rs ++ [(nr, nc)], is_valid_bound q.1 q.2 rows cols = true := by
            intro q hq
            rcases List.mem_append.mp hq with hq | hq
            · exact hrsb q hq
            · rcases List.mem_singleton.mp hq with rfl
              exact hb
          have hlastD' : (rs ++ [(nr, nc)]).getLastD (q0r, q0c) = (nr, nc) :=
            getLastD_concat rs (nr, nc) (q0r, q0c)
          by_cases ht : nr = tr ∧ nc = tc
          · rw [if_pos ht] at h
            exact InnerRes.noConfusion h
          · rw [if_neg ht] at h
            by_cases hcond : tokenColor next_cell ≠ cur_color ∧
                PyObj.pair (nr, nc) ∉ explored ∧ depth < maxd
            · rw [if_pos hcond] at h
              by_cases hm : manhattan_distance nr nc tr tc ≤ (maxd : Int) - (count : Int)
              · rw [if_pos hm] at h
                cases hrest : innerLoop graph rows cols maxd tr tc cur_dir cur_color
                    explored path depth nr nc (count + 1) n with
                | found p' => rw [hrest] at h; exact InnerRes.noConfusion h
                | error e' => rw [hrest] at h; exact InnerRes.noConfusion h
                | pushed ns' =>
                  rw [hrest] at h
                  injection h with h
                  subst h
                  intro m hm'
                  rcases List.mem_cons.mp hm' with rfl | hm'
                  · -- the newly created node satisfies the invariant
                    have hnotin : (nr, nc) ∉ ls := by
                      apply pair_notin_explored
                      rw [← hexp]
                      exact hcond.2.1
                    have hne : (nr, nc) ≠ (tr, tc) := by
                      intro heq
                      apply ht
                      injection heq with h1 h2
                      exact ⟨h1, h2⟩
                    refine ⟨steps ++ [(count, cur_dir)], ps ++ (rs ++ [(nr, nc)]),
                      ls ++ [(nr, nc)], ?_, ?_, ?_, ?_, ?_, ?_, ?_, ?_⟩
                    · rw [hpath]
                      simp [stepLabel]
                    · exact replayData_append cur_dir count steps (0, 0) ps ls
                        (q0r, q0c) (rs ++ [(nr, nc)]) (nr, nc) hreplay hsnoc hlast'
                    · intro q hq
                      rcases List.mem_append.mp hq with hq | hq
                      · exact hbounds q hq
                      · exact hbnd' q hq
                    · exact nodup_concat ls (nr, nc) hnodup hnotin
                    · intro hmem
                      rcases List.mem_append.mp hmem with hmem | hmem
                      · exact htarget hmem
                      · rcases List.mem_singleton.mp hmem with heq
                        exact hne heq.symm
                    · show PyObj.pair (nr, nc) :: explored =
                        (ls ++ [(nr, nc)]).reverse.map PyObj.pair ++ [PyObj.int 0]
                      rw [hexp]
                      simp
                    · apply pathColorOk_append graph cur_dir count steps (0, 0) ps ls
                        (q0r, q0c) (rs ++ [(nr, nc)]) (nr, nc) hcolor hreplay hsnoc hlast'
                      refine ⟨cell0, next_cell, hcell, hcg, ?_⟩
                      rw [← hcc]
                      exact hcond.1
                    · exact hb
                  · exact ih (count + 1) nr nc (rs ++ [(nr, nc)]) (by omega) hsnoc
                      hbnd' hlastD' ns' hrest m hm'
              · rw [if_neg hm] at h
                exact ih (count + 1) nr nc (rs ++ [(nr, nc)]) (by omega) hsnoc
                  hbnd' hlastD' ns h
            · rw [if_neg hcond] at h
              exact ih (count + 1) nr nc (rs ++ [(nr, nc)]) (by omega) hsnoc
                hbnd' hlastD' ns h
      · rw [if_neg hb] at h
        injection h with h
        subst h
        intro m hm
        exact absurd hm (List.not_mem_nil m)

theorem initialNode_inv (graph : List (List String)) (rows cols tr tc : Int)
    (hwf : wellFormedGrid graph rows cols = true) :
    NodeInv graph rows cols tr tc initialNode := by
  refine ⟨[], [], [], rfl, rfl, ?_, List.nodup_nil, List.not_mem_nil _, rfl, trivial,
    wf_origin_in_bounds graph rows cols hwf⟩
  intro q hq
  exact absurd hq (List.not_mem_nil q)

theorem exploreLoop_found_sound (graph : List (List String)) (rows cols : Int)
    (maxd : Nat) (tr tc : Int)
    (hwf : wellFormedGrid graph rows cols = true) :
    ∀ (fuel : Nat) (stack : List MazeNode) (p : String),
      (∀ n ∈ stack, NodeInv graph rows cols tr tc n) →
      exploreLoop graph rows cols maxd tr tc stack fuel = .found p →
      FoundSound graph rows cols tr tc p := by
  intro fuel
  induction fuel with
  | zero =>
    intro stack p _ h
    simp only [exploreLoop] at h
    exact ExpRes.noConfusion h
  | succ f ih =>
    intro stack p hstack h
    cases stack with
    | nil =>
      simp only [exploreLoop] at h
      exact ExpRes.noConfusion h
    | cons cur rest =>
      have hinv := hstack cur (List.mem_cons_self cur rest)
      obtain ⟨steps, ps, ls, hpath, hreplay, hbounds, hnodup, htarget, hexp,
        hcolor, hposb⟩ := hinv
      obtain ⟨cell, hcell, _⟩ := wf_cell graph rows cols cur.row cur.col hwf hposb
      simp only [exploreLoop, hcell] at h
      cases hi : innerLoop graph rows cols maxd tr tc (tokenDir cell) (tokenColor cell)
          cur.explored cur.path cur.depth cur.row cur.col 1 maxd with
      | found p' =>
        rw [hi] at h
        injection h with h
        subst h
        exact innerLoop_found_sound graph rows cols maxd tr tc
          (tokenDir cell) (tokenColor cell) cur.explored cur.path cur.depth
          steps ps ls cur.row cur.col hpath hreplay hbounds hnodup htarget hcolor
          (wf_origin_in_bounds graph rows cols hwf)
          maxd 1 cur.row cur.col [] (le_refl 1) rfl
          (by intro q hq; exact absurd hq (List.not_mem_nil q)) rfl p' hi
      | error e =>
        rw [hi] at h
        exact ExpRes.noConfusion h
      | pushed ns =>
        rw [hi] at h
        refine ih (ns.reverse ++ rest) p ?_ h
        intro m hm
        rcases List.mem_append.mp hm with hm | hm
        · exact innerLoop_pushed_inv graph rows cols maxd tr tc
            (tokenDir cell) (tokenColor cell) cur.explored cur.path cur.depth
            steps ps ls cur.row cur.col cell hpath hreplay hbounds hnodup htarget
            hexp hcolor hcell rfl
            maxd 1 cur.row cur.col [] (le_refl 1) rfl
            (by intro q hq; exact absurd hq (List.not_mem_nil q)) rfl ns hi
            m (List.mem_reverse.mp hm)
        · exact hstack m (List.mem_cons_of_mem cur hm)

theorem explore_found_sound (graph : List (List String)) (rows cols : Int)
    (maxd : Nat) (tr tc : Int) (fuel : Nat) (p : String)
    (hwf : wellFormedGrid graph rows cols = true)
    (h : explore_maze_depth_limited graph rows cols maxd tr tc fuel = .found p) :
    FoundSound graph rows cols tr tc p := by
  apply exploreLoop_found_sound graph rows cols maxd tr tc hwf fuel [initialNode] p ?_ h
  intro n hn
  rcases List.mem_singleton.mp hn with rfl
  exact initialNode_inv graph rows cols tr tc hwf

theorem solve_found_sound (graph : List (List String)) (rows cols : Int)
    (fuel : Nat) (p : String)
    (hwf : wellFormedGrid graph rows cols = true)
    (h : solve_maze_from_file graph rows cols fuel = .path p) :
    FoundSound graph rows cols (rows - 1) (cols - 1) p := by
  obtain ⟨d, _, _, hd3, _⟩ := iddfsAux_path graph rows cols (rows - 1) (cols - 1)
    fuel (rows * cols).toNat 1 p h
  exact explore_found_sound graph rows cols d (rows - 1) (cols - 1) fuel p hwf hd3

/-! ### Claim theorems -/

/-- C1: for the 3 by 4 grid [["B-S","R-E","B-SE","B-SW"],["R-E","B-E","R-S","R-S"],
["R-N","R-NE","B-N","O"]], solve (iterative_deepening_dfs) returns exactly the
string "1S 1E 2E 1S" (for any sufficient fuel; the search needs well under 100
pops). -/
theorem c1_solve_example_grid :
    ∀ fuel, 100 ≤ fuel →
      solve_maze_from_file exampleGrid 3 4 fuel = .path "1S 1E 2E 1S" := by
  intro fuel hf
  have base : solve_maze_from_file exampleGrid 3 4 100 = .path "1S 1E 2E 1S" := by decide
  have hne : solve_maze_from_file exampleGrid 3 4 100 ≠ .fuelOut := by
    rw [base]
    exact fun h => SolveRes.noConfusion h
  rw [solve_mono exampleGrid 3 4 100 fuel hne hf, base]

/-- Witness for C1 at fuel 100. -/
theorem c1_solve_example_grid_witness :
    solve_maze_from_file exampleGrid 3 4 100 = .path "1S 1E 2E 1S" :=
  c1_solve_example_grid 100 (le_refl 100)

/-- C2: on every well-formed grid, a path string returned by solve decomposes
into step labels whose replay from (0,0) visits only in-bounds positions at
every intermediate unit step and ends exactly at the target (rows-1, cols-1). -/
theorem c2_replay_sound (graph : List (List String)) (rows cols : Int) (fuel : Nat)
    (p : String) (hwf : wellFormedGrid graph rows cols = true)
    (hp : solve_maze_from_file graph rows cols fuel = .path p) :
    ∃ steps : List (Nat × String), ∃ ps ls : List (Int × Int),
      p = String.intercalate " " (steps.map (fun s => stepLabel s.1 s.2)) ∧
      replayData (0, 0) steps = some (ps, ls, (rows - 1, cols - 1)) ∧
      ∀ q ∈ ((0, 0) : Int × Int) :: ps, is_valid_bound q.1 q.2 rows cols = true := by
  obtain ⟨steps, last, ps, ls, h1, h2, h3, _, _⟩ :=
    solve_found_sound graph rows cols fuel p hwf hp
  exact ⟨steps ++ [last], ps, ls, h1, h2, h3⟩

/-- Witness for C2 on the example grid with a recognized target token. -/
theorem c2_replay_sound_witness :
    ∃ steps : List (Nat × String), ∃ ps ls : List (Int × Int),
      "1S 1E 2E 1S" = String.intercalate " " (steps.map (fun s => stepLabel s.1 s.2)) ∧
      replayData (0, 0) steps = some (ps, ls, ((3 : Int) - 1, (4 : Int) - 1)) ∧
      ∀ q ∈ ((0, 0) : Int × Int) :: ps, is_valid_bound q.1 q.2 3 4 = true :=
  c2_replay_sound exampleGridWF 3 4 100 "1S 1E 2E 1S" (by decide) (by decide)

/-- C3: the claim states that the initial node's visited set contains precisely
the pair (0, 0).  In the source (line 187) the set is built as `set((0, 0))`,
which in Python is the set containing the integer 0 — the tuple is iterated,
not stored — so the pair (0, 0) is not a member and the origin is not marked
as visited.  The code contradicts its own docstring (lines 178-183), which
shows the explored set as `{(0, 0), (1, 0)}` after the first branch. -/
theorem c3_initial_node_bug :
    initialNode.row = 0 ∧ initialNode.col = 0 ∧ initialNode.path = [] ∧
    initialNode.depth = 1 ∧ initialNode.explored = [PyObj.int 0] ∧
    PyObj.pair (0, 0) ∉ initialNode.explored := by
  decide

/-- C4 counterexample: on crossGrid the returned path "1S 2E 1N 1W 2S 1E"
replays through the cell (1, 1) twice (once inside the "2E" run, once inside
the "2S" run), so the full sequence of traversed positions is not
duplicate-free as the claim requires. -/
theorem c4_counterexample :
    solve_maze_from_file crossGrid 3 3 100 = .path "1S 2E 1N 1W 2S 1E" ∧
    "1S 2E 1N 1W 2S 1E" = String.intercalate " "
      (([(1, "S"), (2, "E"), (1, "N"), (1, "W"), (2, "S"), (1, "E")] :
        List (Nat × String)).map (fun s => stepLabel s.1 s.2)) ∧
    replayData (0, 0) [(1, "S"), (2, "E"), (1, "N"), (1, "W"), (2, "S"), (1, "E")] =
      some ([(1, 0), (1, 1), (1, 2), (0, 2), (0, 1), (1, 1), (2, 1), (2, 2)],
        [(1, 0), (1, 2), (0, 2), (0, 1), (2, 1), (2, 2)], (2, 2)) ∧
    ¬ (((0, 0) : Int × Int) ::
        [(1, 0), (1, 1), (1, 2), (0, 2), (0, 1), (1, 1), (2, 1), (2, 2)]).Nodup := by
  refine ⟨by decide, by decide, by decide, by decide⟩

/-- C4 amended: the landing cells of the returned path's labels are pairwise
distinct (only branch landings enter the explored set), but intermediate
stepped-through cells may repeat, as the counterexample shows. -/
theorem c4_amended (graph : List (List String)) (rows cols : Int) (fuel : Nat)
    (p : String) (hwf : wellFormedGrid graph rows cols = true)
    (hp : solve_maze_from_file graph rows cols fuel = .path p) :
    ∃ steps : List (Nat × String), ∃ ps ls : List (Int × Int),
      p = String.intercalate " " (steps.map (fun s => stepLabel s.1 s.2)) ∧
      replayData (0, 0) steps = some (ps, ls, (rows - 1, cols - 1)) ∧
      ls.Nodup := by
  obtain ⟨steps, last, ps, ls, h1, h2, _, h4, _⟩ :=
    solve_found_sound graph rows cols fuel p hwf hp
  exact ⟨steps ++ [last], ps, ls, h1, h2, h4⟩

/-- Witness for the amended C4 on the example grid. -/
theorem c4_amended_witness :
    ∃ steps : List (Nat × String), ∃ ps ls : List (Int × Int),
      "1S 1E 2E 1S" = String.intercalate " " (steps.map (fun s => stepLabel s.1 s.2)) ∧
      replayData (0, 0) steps = some (ps, ls, ((3 : Int) - 1, (4 : Int) - 1)) ∧
      ls.Nodup :=
  c4_amended exampleGridWF 3 4 100 "1S 1E 2E 1S" (by decide) (by decide)

/-- C5 counterexample: the grid [["B-E","R-X"]] contains the unrecognized
direction token "R-X", yet solve returns the path "1E" and raises no error at
all: the malformed cell is reached as the target before its direction is ever
read, so nothing fails before or during the search. -/
theorem c5_counterexample :
    recognizedDir (tokenDir "R-X") = false ∧
    (∃ r ∈ ([ [ "B-E", "R-X" ] ] : List (List String)), "R-X" ∈ r) ∧
    solve_maze_from_file [ [ "B-E", "R-X" ] ] 1 2 100 = .path "1E" := by
  refine ⟨by decide, ⟨[ "B-E", "R-X" ], by decide, by decide⟩, by decide⟩

/-- C5 amended: an unrecognized direction token faults only lazily — the
KeyError surfaces when the search pops a node at the malformed cell and reads
its direction, not before the search begins; a malformed cell that is never
expanded causes no error and the search may still return a path. -/
theorem c5_amended_lazy_error :
    solve_maze_from_file [ [ "B-X" ] ] 1 1 100 = .error (.keyError "X") ∧
    solve_maze_from_file [ [ "B-E", "R-X" ] ] 1 2 100 = .path "1E" ∧
    recognizedDir (tokenDir "B-X") = false := by
  refine ⟨by decide, by decide, by decide⟩

/-- C6 counterexample: on the 1 by 1 grid [["B-O"]] the origin already equals
the target, yet solve returns the non-empty one-step path "1O" (the "O"
direction does not move, so the first unit step lands on the target), not an
empty path or an already-at-target result. -/
theorem c6_counterexample :
    solve_maze_from_file [ [ "B-O" ] ] 1 1 100 = .path "1O" ∧
    "1O" = stepLabel 1 "O" ∧ "1O" ≠ "" := by
  refine ⟨by decide, by decide, by decide⟩

/-- C6 amended: on a 1 by 1 grid the result depends on the cell's direction:
a no-movement direction "O" yields the one-step path "1O" (the zero-length
step lands on the target), while any moving direction steps out of bounds and
yields the no-solution sentinel; the path is never empty. -/
theorem c6_amended :
    solve_maze_from_file [ [ "B-O" ] ] 1 1 100 = .path "1O" ∧
    solve_maze_from_file [ [ "B-N" ] ] 1 1 100 = .noSolution ∧
    solve_maze_from_file [ [ "B-E" ] ] 1 1 100 = .noSolution := by
  refine ⟨by decide, by decide, by decide⟩

/-- C7 counterexample: on the grid [["B-E","B-O"]] solve returns "1E", whose
single (and final) label starts on a "B" cell and lands on the "B" target —
no strict color change, because the source checks the target before the
color-change condition. -/
theorem c7_counterexample :
    solve_maze_from_file [ [ "B-E", "B-O" ] ] 1 2 100 = .path "1E" ∧
    "1E" = String.intercalate " " ([stepLabel 1 "E"]) ∧
    replayData (0, 0) [(1, "E")] = some ([(0, 1)], [(0, 1)], (0, 1)) ∧
    gridAt [ [ "B-E", "B-O" ] ] 0 0 = some "B-E" ∧
    gridAt [ [ "B-E", "B-O" ] ] 0 1 = some "B-O" ∧
    tokenColor "B-O" = tokenColor "B-E" := by
  refine ⟨by decide, by decide, by decide, by decide, by decide, by decide⟩

/-- C7 amended: every label of a returned path except possibly the final,
target-landing one marks a strict color change between the cell it starts on
and the cell it lands on; the final label is exempt because the target check
precedes the color-change check. -/
theorem c7_amended (graph : List (List String)) (rows cols : Int) (fuel : Nat)
    (p : String) (hwf : wellFormedGrid graph rows cols = true)
    (hp : solve_maze_from_file graph rows cols fuel = .path p) :
    ∃ steps : List (Nat × String), ∃ last : Nat × String,
      ∃ ps ls : List (Int × Int),
      p = String.intercalate " " ((steps ++ [last]).map (fun s => stepLabel s.1 s.2)) ∧
      replayData (0, 0) (steps ++ [last]) = some (ps, ls, (rows - 1, cols - 1)) ∧
      pathColorOk graph (0, 0) steps := by
  obtain ⟨steps, last, ps, ls, h1, h2, _, _, h5⟩ :=
    solve_found_sound graph rows cols fuel p hwf hp
  exact ⟨steps, last, ps, ls, h1, h2, h5⟩

/-- Witness for the amended C7 on the example grid. -/
theorem c7_amended_witness :
    ∃ steps : List (Nat × String), ∃ last : Nat × String,
      ∃ ps ls : List (Int × Int),
      "1S 1E 2E 1S" = String.intercalate " "
        ((steps ++ [last]).map (fun s => stepLabel s.1 s.2)) ∧
      replayData (0, 0) (steps ++ [last]) =
        some (ps, ls, ((3 : Int) - 1, (4 : Int) - 1)) ∧
      pathColorOk exampleGridWF (0, 0) steps :=
  c7_amended exampleGridWF 3 4 100 "1S 1E 2E 1S" (by decide) (by decide)

/-- C8: on a well-formed grid the driver tries the depths 1, 2, ...,
rows*cols in increasing order: a returned path is the result of the first
depth whose exploration succeeds (all strictly smaller depths returned
not-found), the no-solution sentinel is returned exactly when every depth in
range returns not-found, and the driver never returns a raised fault. -/
theorem c8_driver (graph : List (List String)) (rows cols : Int) (fuel : Nat)
    (hwf : wellFormedGrid graph rows cols = true) :
    (∀ p, solve_maze_from_file graph rows cols fuel = .path p →
      ∃ d : Nat, 1 ≤ d ∧ d ≤ (rows * cols).toNat ∧
        explore_maze_depth_limited graph rows cols d (rows - 1) (cols - 1) fuel
          = .found p ∧
        ∀ d', 1 ≤ d' → d' < d →
          explore_maze_depth_limited graph rows cols d' (rows - 1) (cols - 1) fuel
            = .notFound) ∧
    (solve_maze_from_file graph rows cols fuel = .noSolution →
      ∀ d : Nat, 1 ≤ d → d ≤ (rows * cols).toNat →
        explore_maze_depth_limited graph rows cols d (rows - 1) (cols - 1) fuel
          = .notFound) ∧
    (∀ e, solve_maze_from_file graph rows cols fuel ≠ .error e) := by
  refine ⟨?_, ?_, ?_⟩
  · intro p hp
    obtain ⟨d, hd1, hd2, hd3, hd4⟩ := iddfsAux_path graph rows cols (rows - 1)
      (cols - 1) fuel (rows * cols).toNat 1 p hp
    exact ⟨d, hd1, by omega, hd3, fun d' h1 h2 => hd4 d' h1 h2⟩
  · intro hp d h1 h2
    exact iddfsAux_noSolution graph rows cols (rows - 1) (cols - 1) fuel
      (rows * cols).toNat 1 hp d h1 (by omega)
  · exact fun e => iddfsAux_no_error graph rows cols (rows - 1) (cols - 1) fuel hwf
      (rows * cols).toNat 1 e

/-- Witness for C8: on the example grid the path is produced by the first
successful depth. -/
theorem c8_driver_witness :
    ∃ d : Nat, 1 ≤ d ∧ d ≤ ((3 : Int) * 4).toNat ∧
      explore_maze_depth_limited exampleGridWF 3 4 d ((3 : Int) - 1) ((4 : Int) - 1) 100
        = .found "1S 1E 2E 1S" ∧
      ∀ d', 1 ≤ d' → d' < d →
        explore_maze_depth_limited exampleGridWF 3 4 d' ((3 : Int) - 1) ((4 : Int) - 1) 100
          = .notFound :=
  (c8_driver exampleGridWF 3 4 100 (by decide)).1 "1S 1E 2E 1S" (by decide)

/-- C9: the depth-limited explorer terminates on every well-formed grid and
every maxDepth at least 1: a fuel bound exists past which the outer loop has
provably emptied its stack or returned; the inner stepping loop is bounded by
maxDepth iterations by construction (it is invoked with that many remaining
iterations). -/
theorem c9_termination (graph : List (List String)) (rows cols : Int)
    (maxd : Nat) (tr tc : Int)
    (hwf : wellFormedGrid graph rows cols = true) (hd : 1 ≤ maxd) :
    ∃ F : Nat, ∀ fuel, F ≤ fuel →
      explore_maze_depth_limited graph rows cols maxd tr tc fuel ≠ .fuelOut := by
  refine ⟨stackWeight maxd [initialNode] + 1, ?_⟩
  intro fuel hf
  apply exploreLoop_no_fuelOut
  omega

/-- Witness for C9 at the example grid and depth 5. -/
theorem c9_termination_witness :
    ∃ F : Nat, ∀ fuel, F ≤ fuel →
      explore_maze_depth_limited exampleGridWF 3 4 5 2 3 fuel ≠ .fuelOut :=
  c9_termination exampleGridWF 3 4 5 2 3 (by decide) (by decide)

/-- C10: during the depth-limited exploration of a well-formed grid every
cell access is in bounds — in the embedding, where the grid lookup returns an
Option, the out-of-range branch (IndexError) is unreachable: the origin is in
bounds, every pushed node passed is_valid_bound before being created, and the
bounds check precedes the read of the stepped-to cell. -/
theorem c10_no_index_error (graph : List (List String)) (rows cols : Int)
    (maxd : Nat) (tr tc : Int) (fuel : Nat)
    (hwf : wellFormedGrid graph rows cols = true) :
    explore_maze_depth_limited graph rows cols maxd tr tc fuel ≠ .error .indexError :=
  explore_no_error graph rows cols maxd tr tc fuel hwf .indexError

/-- Witness for C10 at the example grid. -/
theorem c10_no_index_error_witness :
    explore_maze_depth_limited exampleGridWF 3 4 5 2 3 100 ≠ .error .indexError :=
  c10_no_index_error exampleGridWF 3 4 5 2 3 100 (by decide)
